import Mathlib

/-!
Shallow embedding of firebase-artifact-pruner (src/index.ts and
src/action-entrypoint.ts), with theorems checking its specification: the
data model, the newest-first retention selection, the paginated release
listing, the chunked batch deletion, the per-app driver loops and the
GitHub-action entrypoint configuration check.

Remote interaction is modelled by explicit response data: the release
listing consumes a trace of page responses, and the batch deleter consumes
a response per chunk request. Effects (requests issued, log lines written,
the process exit code) are returned as data, since that is all a run of the
code observably does.
-/

namespace Pruner

/-- A Firebase App Distribution release (interface Release in src/index.ts).
The createTime field holds the ISO 8601 string parsed to epoch milliseconds,
which is the form the code consumes through new Date(...).getTime(). -/
structure Release where
  name : String
  releaseNotesText : String
  displayVersion : String
  buildVersion : String
  createTime : Int
deriving DecidableEq, Repr

/-- A Firebase app (interface App in src/index.ts). -/
structure App where
  name : String
  appId : String
  platform : String
deriving DecidableEq, Repr

/-- One step of stable insertion into a newest-first list: the new release
goes in front of the first already placed release dated no later than it. -/
def insertRelease (r : Release) : List Release → List Release
  | [] => [r]
  | x :: xs =>
    if x.createTime ≤ r.createTime then r :: x :: xs else x :: insertRelease r xs

/-- Newest-first stable sort of the inventory. Models releases.sort with the
comparator (a, b) => new Date(b.createTime).getTime() - new Date(a.createTime).getTime()
(src/index.ts lines 200-203 and 277-280): ECMAScript requires Array sort to
be stable, and under a consistent comparator the stable sorted permutation
is unique, so any stable sorting algorithm is an exact model of the
observable result. -/
def sortReleases (l : List Release) : List Release :=
  l.foldr insertRelease []

/-- The newest-first order the comparator induces. -/
def newestFirst (a b : Release) : Prop := b.createTime ≤ a.createTime

/-- The releases carrying one given timestamp, in order. -/
def timeIs (t : Int) (r : Release) : Bool := decide (r.createTime = t)

/-- The deletion criterion on a (rank, release) pair of the newest-first
order: src/index.ts line 211 and line 290, i >= minCount && releaseDate < cutoffDate. -/
def deletionCond (minCount : Nat) (cutoff : Int) (p : Nat × Release) : Bool :=
  decide (minCount ≤ p.1) && decide (p.2.createTime < cutoff)

/-- The indexed selection loop over the sorted releases (src/index.ts lines
208-214 and 286-293): i is the rank of the head of the remaining list and a
selected release is pushed in rank order. -/
def selectLoop (minCount : Nat) (cutoff : Int) : Nat → List Release → List Release
  | _, [] => []
  | i, r :: rs =>
    if minCount ≤ i ∧ r.createTime < cutoff then r :: selectLoop minCount cutoff (i + 1) rs
    else selectLoop minCount cutoff (i + 1) rs

/-- The Retention Selector: sort newest first, then walk the ranks pushing
the releases to delete (the releasesToDelete computation of src/index.ts
lines 200-214 and 277-293). The cutoff parameter stands for the value of
cutoffDate, the current time with maxDays days subtracted. -/
def selectForDeletion (releases : List Release) (minCount : Nat) (cutoff : Int) : List Release :=
  selectLoop minCount cutoff 0 (sortReleases releases)

/-- The ranked deletion set: the (rank, release) pairs of the sorted order
that satisfy the deletion criterion. -/
def deletionEnum (releases : List Release) (minCount : Nat) (cutoff : Int) :
    List (Nat × Release) :=
  (sortReleases releases).enum.filter (deletionCond minCount cutoff)

/-- The ranked keep set: the complement of the ranked deletion set. The code
has no keep collection of its own; keeping a release is not selecting it. -/
def keepEnum (releases : List Release) (minCount : Nat) (cutoff : Int) :
    List (Nat × Release) :=
  (sortReleases releases).enum.filter (fun p => !(deletionCond minCount cutoff p))

/-- The kept releases, in sorted order. -/
def keepSet (releases : List Release) (minCount : Nat) (cutoff : Int) : List Release :=
  (keepEnum releases minCount cutoff).map Prod.snd

/-- The outcome of one page request of the release listing: the non-ok
branch (carrying response.status and the body text) or the parsed body, a
page of releases (result.releases || []) plus the optional nextPageToken. -/
inductive PageResult where
  | failure (status : Nat) (body : String)
  | success (releases : List Release) (nextPageToken : Option String)
deriving DecidableEq, Repr

/-- Whether a page response is a success. -/
def PageResult.isSuccess : PageResult → Bool
  | PageResult.failure _ _ => false
  | PageResult.success _ _ => true

/-- The error listReleases throws on a non-ok page response: the message
Failed to list releases for app {appId}: {status} {errorText} carries the
app identifier, the status and the body text, and nothing else. -/
structure ListingFailure where
  appId : String
  status : Nat
  body : String
deriving DecidableEq, Repr

/-- The do-while pagination loop of listReleases (src/index.ts lines 62-88)
over the trace of page responses the remote returns, carrying the
accumulated allReleases. A failure response aborts with the thrown error and
no release data; a success response appends its page; the loop continues
exactly when a nextPageToken is present. A trace shorter than the number of
requests the loop issues cannot arise from a run of the code; on such a
trace the model stops with the pages read so far. -/
def listPagesLoop (appId : String) :
    List PageResult → List Release → Except ListingFailure (List Release)
  | [], acc => Except.ok acc
  | PageResult.failure s b :: _, _ => Except.error ⟨appId, s, b⟩
  | PageResult.success rels none :: _, acc => Except.ok (acc ++ rels)
  | PageResult.success rels (some _) :: rest, acc => listPagesLoop appId rest (acc ++ rels)

/-- The Inventory Collector listReleases (src/index.ts lines 50-89),
modelled over the response trace of its successive page requests. -/
def listReleases (appId : String) (pages : List PageResult) :
    Except ListingFailure (List Release) :=
  listPagesLoop appId pages []

/-- A trace of page responses that all succeed and all carry a
continuation token (the shape of every page before the final one). -/
def successTrace (pre : List (List Release × String)) : List PageResult :=
  pre.map (fun p => PageResult.success p.1 (some p.2))

/-- Whether a trace holds no failure response. -/
def pagesClean (pages : List PageResult) : Bool :=
  pages.all PageResult.isSuccess

/-- The outcome of one batchDelete chunk request: success (response ok), an
HTTP error (response not ok, carrying status and body text), or a thrown
exception (a rejected fetch), which propagates out of deleteReleases. -/
inductive ChunkResp where
  | ok
  | httpError (status : Nat) (body : String)
  | exn (msg : String)
deriving DecidableEq, Repr

/-- Whether a chunk response is a thrown exception. -/
def ChunkResp.isExn : ChunkResp → Bool
  | ChunkResp.exn _ => true
  | _ => false

/-- The body of the slice loop, made structural with a fuel argument: as
long as fuel and elements remain, emit the chunk l.take n and recurse on
l.drop n. -/
def chunksOfGo {α : Type} (n : Nat) : Nat → List α → List (List α)
  | _, [] => []
  | 0, _ => []
  | fuel + 1, l => l.take n :: chunksOfGo n fuel (l.drop n)

/-- The slice loop for (let i = 0; i < releaseNames.length; i += chunkSize)
of src/index.ts lines 111-113: the successive chunks
releaseNames.slice(i, i + chunkSize). The length of the list bounds the
number of chunks, since the code only ever uses the positive chunk size
100, so it serves as the fuel. -/
def chunksOf {α : Type} (n : Nat) (l : List α) : List (List α) :=
  chunksOfGo n l.length l

/-- The lengths the chunks of a list of the given length have. -/
def chunkLens (n : Nat) (len : Nat) : List Nat :=
  if h : len = 0 ∨ n = 0 then [] else min n len :: chunkLens n (len - n)
termination_by len
decreasing_by
  simp only [not_or] at h
  have h1 : 0 < len := Nat.pos_of_ne_zero h.1
  have h2 : 0 < n := Nat.pos_of_ne_zero h.2
  omega

/-- The observable trace of one deleteReleases run (src/index.ts lines
91-147): the chunk requests issued in order, the chunks whose response was
ok (each logged as successfully deleted), the chunks whose response was not
ok together with the status and body text of their error log line, and the
message of an exception that escaped the loop, when one did. -/
structure DeleterRun where
  requests : List (List String)
  succeededChunks : List (List String)
  failedChunks : List (List String × Nat × String)
  thrown : Option String
deriving DecidableEq, Repr

/-- The chunk loop of deleteReleases (src/index.ts lines 112-143): one
batched request per chunk, the k-th chunk request receiving resps k. A
non-ok response is logged with the chunk identifiers and processing
continues with the next chunk; a thrown fetch aborts the loop and
propagates out. -/
def runChunks (resps : Nat → ChunkResp) : List (List String) → Nat → DeleterRun
  | [], _ => ⟨[], [], [], none⟩
  | c :: cs, k =>
    match resps k with
    | ChunkResp.ok =>
      let r := runChunks resps cs (k + 1)
      ⟨c :: r.requests, c :: r.succeededChunks, r.failedChunks, r.thrown⟩
    | ChunkResp.httpError s b =>
      let r := runChunks resps cs (k + 1)
      ⟨c :: r.requests, r.succeededChunks, (c, s, b) :: r.failedChunks, r.thrown⟩
    | ChunkResp.exn m => ⟨[c], [], [], some m⟩

/-- The Batch Deleter deleteReleases (src/index.ts lines 91-147), modelled
over the per-chunk response pattern. An empty releaseNames list logs and
returns immediately, before any request. -/
def deleteReleases (releaseNames : List String) (resps : Nat → ChunkResp) : DeleterRun :=
  if releaseNames.isEmpty then ⟨[], [], [], none⟩
  else runChunks resps (chunksOf 100 releaseNames) 0

/-- The number of identifiers reported deleted: the sum of the sizes of the
chunks whose request succeeded, which is what the per-chunk success log
lines (Successfully deleted a chunk of N release(s)) add up to. The code
reports per chunk and keeps no explicit counter. -/
def DeleterRun.deletedCount (d : DeleterRun) : Nat :=
  (d.succeededChunks.map List.length).sum

/-- The record a failed chunk keeps, restricted to its identifiers. -/
def failedIds (f : List String × Nat × String) : List String := f.1

/-- The outcome of processing one app in main (src/index.ts lines 185-242
for the single-app branch, lines 260-322 inside the all-apps loop). -/
inductive AppOutcome where
  | listingFailed (e : ListingFailure)
  | noReleases
  | nothingToDelete
  | pruned (d : DeleterRun)
deriving DecidableEq, Repr

/-- The per-app pipeline of main: list the releases; an empty inventory is
logged and processing of this app stops; otherwise select by rank and age
and, when the deletion set is nonempty, run the Batch Deleter on the
release names. -/
def processApp (appId : String) (pages : List PageResult) (resps : Nat → ChunkResp)
    (minCount : Nat) (cutoff : Int) : AppOutcome :=
  match listReleases appId pages with
  | Except.error e => AppOutcome.listingFailed e
  | Except.ok releases =>
    if releases.isEmpty then AppOutcome.noReleases
    else
      let toDelete := selectForDeletion releases minCount cutoff
      if toDelete.isEmpty then AppOutcome.nothingToDelete
      else AppOutcome.pruned (deleteReleases (toDelete.map Release.name) resps)

/-- The chunk deletion requests an app run issues. -/
def AppOutcome.deleteRequests : AppOutcome → List (List String)
  | AppOutcome.pruned d => d.requests
  | _ => []

/-- Whether an app run ended in a listing failure. -/
def AppOutcome.isListingFailure : AppOutcome → Bool
  | AppOutcome.listingFailed _ => true
  | _ => false

/-- The number of failed deletion chunks an app run recorded. -/
def AppOutcome.chunkFailures : AppOutcome → Nat
  | AppOutcome.pruned d => d.failedChunks.length
  | _ => 0

/-- The count of console.error lines an app run wrote: one line per failed
chunk (src/index.ts lines 129-137), one line when a deleter exception was
caught at the per-app boundary (lines 235-240 and 316-321), and one line
from the outer catch when the listing threw (lines 325-328). -/
def AppOutcome.errorLines : AppOutcome → Nat
  | AppOutcome.listingFailed _ => 1
  | AppOutcome.pruned d =>
    d.failedChunks.length + (match d.thrown with | some _ => 1 | none => 0)
  | _ => 0

/-- The per-app remote environment of one driver run: the app as the
app-listing returned it, the trace of its release-listing page responses,
and the responses to its chunk deletion requests. -/
structure AppSpec where
  app : App
  pages : List PageResult
  resps : Nat → ChunkResp

/-- What a whole run reports when it terminates: the apps the loop worked
through with their outcomes, and the process exit code (1 exactly when an
error reached the outer catch of main, which logs it and calls
process.exit(1); 0 otherwise). -/
structure DriverResult where
  processed : List (String × AppOutcome)
  exitCode : Nat
deriving DecidableEq, Repr

/-- The all-apps loop of main (src/index.ts lines 260-322) together with
the outer catch (lines 325-328). listReleases is called with no per-app
guard, so a listing failure escapes the loop to the outer catch, which
exits with code 1 without reaching the remaining apps; deleteReleases sits
in a per-app try/catch (lines 309-321), so a deleter exception is logged
and the loop continues with the next app. -/
def runAllApps (minCount : Nat) (cutoff : Int) : List AppSpec → DriverResult
  | [] => ⟨[], 0⟩
  | a :: rest =>
    match processApp a.app.appId a.pages a.resps minCount cutoff with
    | AppOutcome.listingFailed e => ⟨[(a.app.appId, AppOutcome.listingFailed e)], 1⟩
    | out =>
      let r := runAllApps minCount cutoff rest
      ⟨(a.app.appId, out) :: r.processed, r.exitCode⟩

/-- The single-app branch of main (src/index.ts lines 185-242) together
with the outer catch: a listing failure reaches the outer catch and the
process exits with code 1; a deleter exception is caught at lines 228-240
and the run completes with exit code 0. -/
def runSingleApp (appId : String) (pages : List PageResult) (resps : Nat → ChunkResp)
    (minCount : Nat) (cutoff : Int) : DriverResult :=
  match processApp appId pages resps minCount cutoff with
  | AppOutcome.listingFailed e => ⟨[(appId, AppOutcome.listingFailed e)], 1⟩
  | out => ⟨[(appId, out)], 0⟩

/-- The count of console.error lines of the whole run. -/
def DriverResult.errorLines (r : DriverResult) : Nat :=
  (r.processed.map (fun p => AppOutcome.errorLines p.2)).sum

/-- The contents of the final per-app log line Finished attempting to
delete N release(s): printed with N the size of the deletion set when the
chunk loop ran to its end, not printed when an exception escaped it or the
app never reached the deleter. -/
def finishedLine : AppOutcome → Option Nat
  | AppOutcome.pruned d =>
    match d.thrown with
    | none => some d.requests.flatten.length
    | some _ => none
  | _ => none

/-- Everything a run reports at termination: the exit code, whether the
final Pruning complete line was printed (the outer catch path skips it),
and each processed app with the contents of its Finished attempting log
line. A failed chunk changes none of these; it only adds a console.error
line while the run is in flight (see DriverResult.errorLines). -/
def DriverResult.terminalReport (r : DriverResult) : Nat × Bool × List (String × Option Nat) :=
  (r.exitCode, decide (r.exitCode = 0), r.processed.map (fun p => (p.1, finishedLine p.2)))

/-- The longest digit prefix of a character list. -/
def leadingDigits : List Char → List Char
  | [] => []
  | c :: cs => if c.isDigit then c :: leadingDigits cs else []

/-- The numeric value of a digit list, most significant first. -/
def digitsToNat (ds : List Char) : Nat :=
  ds.foldl (fun acc c => acc * 10 + (c.toNat - 48)) 0

/-- The digits after an optional sign: none models NaN. -/
def parseIntTail (sign : Int) (cs : List Char) : Option Int :=
  let ds := leadingDigits cs
  if ds.isEmpty then none else some (sign * (digitsToNat ds : Int))

/-- JavaScript parseInt(s, 10): leading whitespace skipped, an optional
sign, then the longest digit prefix; none models the NaN result (no digit
found). Trailing non-digit characters are ignored, exactly as parseInt
ignores them. -/
def parseIntJS (s : String) : Option Int :=
  match s.toList.dropWhile Char.isWhitespace with
  | '-' :: cs => parseIntTail (-1) cs
  | '+' :: cs => parseIntTail 1 cs
  | cs => parseIntTail 1 cs

/-- The inputs of one GitHub action run (src/action-entrypoint.ts): each
core.getInput yields the configured string or the empty string when the
input is absent, and googleAppCredentials is the
GOOGLE_APPLICATION_CREDENTIALS environment variable (empty when unset). -/
structure ActionInputs where
  projectId : String
  serviceAccountKeyJson : String
  serviceAccountKeyPath : String
  appId : String
  minCountInput : String
  maxDaysInput : String
  googleAppCredentials : String
deriving DecidableEq, Repr

/-- The options handed to runPruner when the entrypoint proceeds. The
minCount and maxDays fields hold the parseInt results, none standing for
NaN: the entrypoint never validates them. -/
structure PrunerOptionsModel where
  projectId : String
  serviceAccountKeyJson : Option String
  serviceAccountKeyPath : Option String
  appId : Option String
  minCount : Option Int
  maxDays : Option Int
deriving DecidableEq, Repr

/-- How the entrypoint run ends: configInvalid when core.setFailed is
called and the function returns before runPruner, so no remote call is ever
issued; proceeded when runPruner is invoked with the assembled options,
which is where remote calls begin. The two constructors keep a
configuration failure distinct from anything a started run can report. -/
inductive ActionResult where
  | configInvalid (msg : String)
  | proceeded (opts : PrunerOptionsModel)
deriving DecidableEq, Repr

/-- The message of the credential-source check in src/action-entrypoint.ts
lines 13-22. -/
def credentialErrorMsg : String :=
  "Either \"service-account-key-json\", \"service-account-key-path\", or GOOGLE_APPLICATION_CREDENTIALS env must be provided."

/-- The run function of src/action-entrypoint.ts lines 4-42: read the
inputs (a missing required project-id throws inside getInput and is caught
by setFailed), parse min-count and max-days with parseInt without
validation, fail when no credential source is present, and otherwise call
runPruner with the assembled options. -/
def actionRun (i : ActionInputs) : ActionResult :=
  if i.projectId = "" then
    ActionResult.configInvalid "Input required and not supplied: project-id"
  else
    let minCount := parseIntJS (if i.minCountInput = "" then "5" else i.minCountInput)
    let maxDays := parseIntJS (if i.maxDaysInput = "" then "30" else i.maxDaysInput)
    if i.serviceAccountKeyJson = "" ∧ i.serviceAccountKeyPath = "" ∧ i.googleAppCredentials = "" then
      ActionResult.configInvalid credentialErrorMsg
    else
      ActionResult.proceeded
        ⟨i.projectId,
          if i.serviceAccountKeyJson = "" then none else some i.serviceAccountKeyJson,
          if i.serviceAccountKeyPath = "" then none else some i.serviceAccountKeyPath,
          if i.appId = "" then none else some i.appId,
          minCount, maxDays⟩

/-! Concrete instances used by the witnesses and counterexamples. -/

/-- A deletion set of 250 identifiers. -/
def chunkNames250 : List String := List.replicate 250 "r"

/-- A small concrete deletion set. -/
def namesSmall : List String :=
  ["projects/p/apps/a/releases/r1", "projects/p/apps/a/releases/r2"]

/-- Chunk responses in which every request succeeds. -/
def allChunksOk : Nat → ChunkResp := fun _ => ChunkResp.ok

/-- Chunk responses in which exactly the second chunk request (index 1)
gets a non-success response. -/
def failSecondChunk : Nat → ChunkResp :=
  fun i => if i = 1 then ChunkResp.httpError 500 "boom" else ChunkResp.ok

/-- An app whose release listing fails on its first page. -/
def appA1 : AppSpec :=
  ⟨⟨"projects/p/apps/a1", "A1", "ANDROID"⟩, [PageResult.failure 500 "boom"], allChunksOk⟩

/-- An app with an empty, successfully listed inventory. -/
def appA2 : AppSpec :=
  ⟨⟨"projects/p/apps/a2", "A2", "IOS"⟩, [PageResult.success [] none], allChunksOk⟩

/-- A release old enough to be selected against cutoff 0 with minCount 0. -/
def staleRelease : Release := ⟨"projects/p/apps/a3/releases/r1", "", "1.0", "7", -1000⟩

/-- An app whose listing succeeds with one stale release and whose chunk
deletion request throws. -/
def appA3 : AppSpec :=
  ⟨⟨"projects/p/apps/a3", "A3", "ANDROID"⟩, [PageResult.success [staleRelease] none],
    fun _ => ChunkResp.exn "network down"⟩

/-- An app with an empty, successfully listed inventory, after appA3. -/
def appA4 : AppSpec :=
  ⟨⟨"projects/p/apps/a4", "A4", "IOS"⟩, [PageResult.success [] none], allChunksOk⟩

/-- A stale release of the app used in the chunk-failure comparison. -/
def staleRelease5 : Release := ⟨"projects/p/apps/a5/releases/r1", "", "2.0", "9", -1000⟩

/-- An app whose single deletion chunk request gets a non-success
response. -/
def appChunkFail : AppSpec :=
  ⟨⟨"projects/p/apps/a5", "A5", "ANDROID"⟩, [PageResult.success [staleRelease5] none],
    fun _ => ChunkResp.httpError 500 "err"⟩

/-- The same app with the same inventory, with the chunk request
succeeding. -/
def appChunkOk : AppSpec :=
  ⟨⟨"projects/p/apps/a5", "A5", "ANDROID"⟩, [PageResult.success [staleRelease5] none],
    allChunksOk⟩

/-- Action inputs carrying a credential source and a malformed min-count. -/
def inputsMalformedMin : ActionInputs :=
  ⟨"my-project", "key-json", "", "", "abc", "30", ""⟩

/-- Action inputs with no credential source at all. -/
def inputsNoCreds : ActionInputs := ⟨"my-project", "", "", "", "", "", ""⟩

/-! Theorems. First the sorting and selection lemmas, then the claims. -/

theorem insertRelease_perm (r : Release) (l : List Release) :
    (insertRelease r l).Perm (r :: l) := by
  induction l with
  | nil => simp [insertRelease]
  | cons x xs ih =>
    by_cases h : x.createTime ≤ r.createTime
    · simp [insertRelease, h]
    · simp only [insertRelease, if_neg h]
      exact (ih.cons x).trans (List.Perm.swap r x xs)

theorem sortReleases_perm (l : List Release) : (sortReleases l).Perm l := by
  induction l with
  | nil => simp [sortReleases]
  | cons a l ih =>
    have hs : sortReleases (a :: l) = insertRelease a (sortReleases l) := rfl
    rw [hs]
    exact (insertRelease_perm a (sortReleases l)).trans (ih.cons a)

theorem insertRelease_pairwise (r : Release) (l : List Release)
    (h : List.Pairwise newestFirst l) :
    List.Pairwise newestFirst (insertRelease r l) := by
  induction l with
  | nil => simp [insertRelease, List.Pairwise]
  | cons x xs ih =>
    rcases List.pairwise_cons.mp h with ⟨hx, hxs⟩
    by_cases hc : x.createTime ≤ r.createTime
    · simp only [insertRelease, if_pos hc]
      refine List.pairwise_cons.mpr ⟨?_, h⟩
      intro b hb
      rcases List.mem_cons.mp hb with hbx | hbxs
      · subst hbx; exact hc
      · exact le_trans (hx b hbxs) hc
    · simp only [insertRelease, if_neg hc]
      refine List.pairwise_cons.mpr ⟨?_, ih hxs⟩
      intro b hb
      have hb2 : b ∈ r :: xs := (insertRelease_perm r xs).mem_iff.mp hb
      rcases List.mem_cons.mp hb2 with hbr | hbxs
      · subst hbr
        exact le_of_lt (lt_of_not_le hc)
      · exact hx b hbxs

theorem sortReleases_pairwise (l : List Release) :
    List.Pairwise newestFirst (sortReleases l) := by
  induction l with
  | nil => simp [sortReleases]
  | cons a l ih => exact insertRelease_pairwise a (sortReleases l) ih

theorem insertRelease_filter_eq (r : Release) (l : List Release) (t : Int)
    (hr : r.createTime = t) :
    (insertRelease r l).filter (timeIs t) = r :: l.filter (timeIs t) := by
  induction l with
  | nil => simp [insertRelease, timeIs, hr]
  | cons x xs ih =>
    by_cases hc : x.createTime ≤ r.createTime
    · simp only [insertRelease, if_pos hc]
      simp [timeIs, hr]
    · have hxt : ¬ (x.createTime = t) := by
        intro hx
        exact hc (by rw [hx, hr])
      simp only [insertRelease, if_neg hc]
      simp [timeIs, hxt, ih]

theorem insertRelease_filter_ne (r : Release) (l : List Release) (t : Int)
    (hr : ¬ (r.createTime = t)) :
    (insertRelease r l).filter (timeIs t) = l.filter (timeIs t) := by
  induction l with
  | nil => simp [insertRelease, timeIs, hr]
  | cons x xs ih =>
    by_cases hc : x.createTime ≤ r.createTime
    · simp only [insertRelease, if_pos hc]
      simp [timeIs, hr]
    · simp only [insertRelease, if_neg hc]
      by_cases hxt : x.createTime = t
      · simp [timeIs, hxt, ih]
      · simp [timeIs, hxt, ih]

/-- Stability of the sort: the subsequence of releases with any one
timestamp is unchanged, so releases with equal createTime keep their
relative input order. -/
theorem sortReleases_filter_time (l : List Release) (t : Int) :
    (sortReleases l).filter (timeIs t) = l.filter (timeIs t) := by
  induction l with
  | nil => rfl
  | cons a l ih =>
    have hs : sortReleases (a :: l) = insertRelease a (sortReleases l) := rfl
    by_cases ha : a.createTime = t
    · rw [hs, insertRelease_filter_eq a (sortReleases l) t ha, ih]
      simp [timeIs, ha]
    · rw [hs, insertRelease_filter_ne a (sortReleases l) t ha, ih]
      simp [timeIs, ha]

theorem selectLoop_eq_filter (minCount : Nat) (cutoff : Int) (i : Nat) (l : List Release) :
    selectLoop minCount cutoff i l
      = ((List.enumFrom i l).filter (deletionCond minCount cutoff)).map Prod.snd := by
  induction l generalizing i with
  | nil => rfl
  | cons r rs ih =>
    rw [List.enumFrom_cons]
    by_cases h : minCount ≤ i ∧ r.createTime < cutoff
    · have hc : deletionCond minCount cutoff (i, r) = true := by
        simp [deletionCond, h.1, h.2]
      simp [selectLoop, if_pos h, List.filter_cons, hc, ih]
    · have hc : deletionCond minCount cutoff (i, r) = false := by
        rcases not_and_or.mp h with h1 | h2
        · simp [deletionCond, h1]
        · simp [deletionCond, h2]
      simp [selectLoop, if_neg h, List.filter_cons, hc, ih]

theorem selectForDeletion_eq (releases : List Release) (minCount : Nat) (cutoff : Int) :
    selectForDeletion releases minCount cutoff
      = (deletionEnum releases minCount cutoff).map Prod.snd := by
  unfold selectForDeletion deletionEnum
  rw [selectLoop_eq_filter]
  rfl

/-- C1: for every inventory and policy, the deletion set of the Retention
Selector is exactly the releases at rank i of the newest-first order with
i at least minKeep and createdAt before the cutoff; a ranked release is
never in both the deletion and the keep set; the two sets together are a
permutation of the ranked inventory, and deletions plus kept releases are a
permutation of the input (no artifact lost or duplicated); a release ranked
among the minKeep newest is never selected, whatever its age. -/
theorem C1_selector_partition (releases : List Release) (minCount : Nat) (cutoff : Int) :
    selectForDeletion releases minCount cutoff
        = (deletionEnum releases minCount cutoff).map Prod.snd
      ∧ (∀ p, p ∈ deletionEnum releases minCount cutoff →
          minCount ≤ p.1 ∧ p.2.createTime < cutoff)
      ∧ (∀ p, p ∈ deletionEnum releases minCount cutoff →
          p ∉ keepEnum releases minCount cutoff)
      ∧ (deletionEnum releases minCount cutoff ++ keepEnum releases minCount cutoff).Perm
          (sortReleases releases).enum
      ∧ (selectForDeletion releases minCount cutoff ++ keepSet releases minCount cutoff).Perm
          releases
      ∧ (∀ p, p ∈ (sortReleases releases).enum → p.1 < minCount →
          p ∉ deletionEnum releases minCount cutoff) := by
  have hperm : (deletionEnum releases minCount cutoff ++ keepEnum releases minCount cutoff).Perm
      (sortReleases releases).enum :=
    List.filter_append_perm (deletionCond minCount cutoff) (sortReleases releases).enum
  refine ⟨selectForDeletion_eq releases minCount cutoff, ?_, ?_, hperm, ?_, ?_⟩
  · intro p hp
    have h := (List.mem_filter.mp hp).2
    simpa [deletionCond] using h
  · intro p hp hk
    have h1 := (List.mem_filter.mp hp).2
    have h2 := (List.mem_filter.mp hk).2
    simp [h1] at h2
  · have hmap := hperm.map Prod.snd
    rw [List.map_append, List.enum_map_snd] at hmap
    rw [selectForDeletion_eq]
    exact hmap.trans (sortReleases_perm releases)
  · intro p _ hlt hmem
    have h := (List.mem_filter.mp hmem).2
    simp only [deletionCond, Bool.and_eq_true, decide_eq_true_eq] at h
    exact absurd h.1 (Nat.not_le.mpr hlt)

/-- C9: the Retention Selector is deterministic: as a pure function of the
input snapshot and policy it yields the same deletion set on every run; the
sorted sequence is newest-first; and the sort breaks createdAt ties stably,
so releases sharing a timestamp keep the relative order they had in the
input. -/
theorem C9_selector_deterministic_stable (releases : List Release) (minCount : Nat)
    (cutoff : Int) :
    selectForDeletion releases minCount cutoff = selectForDeletion releases minCount cutoff
      ∧ List.Pairwise newestFirst (sortReleases releases)
      ∧ (∀ t : Int, (sortReleases releases).filter (timeIs t) = releases.filter (timeIs t)) :=
  ⟨rfl, sortReleases_pairwise releases, fun t => sortReleases_filter_time releases t⟩

theorem listPagesLoop_success (appId : String) :
    ∀ (pre : List (List Release × String)) (last : List Release) (acc : List Release),
      listPagesLoop appId (successTrace pre ++ [PageResult.success last none]) acc
        = Except.ok (acc ++ ((pre.map Prod.fst).flatten ++ last)) := by
  intro pre
  induction pre with
  | nil =>
    intro last acc
    simp [successTrace, listPagesLoop]
  | cons p ps ih =>
    intro last acc
    have hs : successTrace (p :: ps)
        = PageResult.success p.1 (some p.2) :: successTrace ps := rfl
    rw [hs, List.cons_append]
    have hstep :
        listPagesLoop appId
            ((PageResult.success p.1 (some p.2)) :: (successTrace ps ++ [PageResult.success last none])) acc
          = listPagesLoop appId (successTrace ps ++ [PageResult.success last none]) (acc ++ p.1) := rfl
    rw [hstep, ih last (acc ++ p.1)]
    simp [List.append_assoc]

theorem listPagesLoop_failure (appId : String) :
    ∀ (pre : List (List Release × String)) (s : Nat) (b : String)
      (rest : List PageResult) (acc : List Release),
      listPagesLoop appId (successTrace pre ++ PageResult.failure s b :: rest) acc
        = Except.error ⟨appId, s, b⟩ := by
  intro pre
  induction pre with
  | nil =>
    intro s b rest acc
    rfl
  | cons p ps ih =>
    intro s b rest acc
    have hs : successTrace (p :: ps)
        = PageResult.success p.1 (some p.2) :: successTrace ps := rfl
    rw [hs, List.cons_append]
    exact ih s b rest (acc ++ p.1)

/-- C7: for a paginated listing of N pages where the first N minus 1 pages
each return a continuation token and the final page returns none, the
Collector yields exactly the concatenation of the pages in page order; a
single empty page with no token yields the empty inventory and is not an
error. -/
theorem C7_pagination (appId : String) (pre : List (List Release × String))
    (last : List Release) :
    listReleases appId (successTrace pre ++ [PageResult.success last none])
        = Except.ok ((pre.map Prod.fst).flatten ++ last)
      ∧ listReleases appId [PageResult.success [] none] = Except.ok [] := by
  constructor
  · have h := listPagesLoop_success appId pre last []
    simpa [listReleases] using h
  · rfl

/-- C5: a non-success response to any page request is fatal for that app
run: listReleases yields exactly the error carrying the app identifier and
the status (no partial data from the already fetched pages escapes), the
per-app pipeline ends in ListingFailed, no chunk deletion request is
issued for that app, and in single-app mode the process exits with code 1. -/
theorem C5_listing_failure_no_deletion (appId : String) (pre : List (List Release × String))
    (s : Nat) (b : String) (rest : List PageResult) (resps : Nat → ChunkResp)
    (minCount : Nat) (cutoff : Int) :
    listReleases appId (successTrace pre ++ PageResult.failure s b :: rest)
        = Except.error ⟨appId, s, b⟩
      ∧ processApp appId (successTrace pre ++ PageResult.failure s b :: rest) resps
          minCount cutoff = AppOutcome.listingFailed ⟨appId, s, b⟩
      ∧ (processApp appId (successTrace pre ++ PageResult.failure s b :: rest) resps
          minCount cutoff).deleteRequests = []
      ∧ (runSingleApp appId (successTrace pre ++ PageResult.failure s b :: rest) resps
          minCount cutoff).exitCode = 1 := by
  have hl : listReleases appId (successTrace pre ++ PageResult.failure s b :: rest)
      = Except.error ⟨appId, s, b⟩ :=
    listPagesLoop_failure appId pre s b rest []
  have hp : processApp appId (successTrace pre ++ PageResult.failure s b :: rest) resps
      minCount cutoff = AppOutcome.listingFailed ⟨appId, s, b⟩ := by
    simp [processApp, hl]
  refine ⟨hl, hp, ?_, ?_⟩
  · rw [hp]
    rfl
  · simp [runSingleApp, hp]

theorem chunksOfGo_nil {α : Type} (n fuel : Nat) : chunksOfGo n fuel ([] : List α) = [] := by
  cases fuel <;> rfl

theorem chunksOfGo_congr {α : Type} (n : Nat) (hn : n ≠ 0) :
    ∀ (fuel fuel2 : Nat) (l : List α), l.length ≤ fuel → l.length ≤ fuel2 →
      chunksOfGo n fuel l = chunksOfGo n fuel2 l := by
  intro fuel
  induction fuel with
  | zero =>
    intro fuel2 l h h2
    have hl : l = [] := by
      cases l with
      | nil => rfl
      | cons x xs => simp at h
    subst hl
    rw [chunksOfGo_nil, chunksOfGo_nil]
  | succ fuel ih =>
    intro fuel2 l h h2
    cases l with
    | nil => rw [chunksOfGo_nil, chunksOfGo_nil]
    | cons x xs =>
      cases fuel2 with
      | zero => simp at h2
      | succ fuel2 =>
        simp only [chunksOfGo]
        congr 1
        simp only [List.length_cons] at h h2
        apply ih fuel2 ((x :: xs).drop n) <;>
          · simp only [List.length_drop, List.length_cons]
            omega

theorem chunksOf_nil {α : Type} (n : Nat) : chunksOf n ([] : List α) = [] := rfl

theorem chunksOf_cons {α : Type} (n : Nat) (hn : n ≠ 0) (l : List α) (hl : l ≠ []) :
    chunksOf n l = l.take n :: chunksOf n (l.drop n) := by
  cases l with
  | nil => exact absurd rfl hl
  | cons x xs =>
    unfold chunksOf
    simp only [List.length_cons, chunksOfGo]
    congr 1
    apply chunksOfGo_congr n hn
    · simp only [List.length_drop, List.length_cons]
      omega
    · exact le_rfl

theorem chunksOf_flatten_aux {α : Type} (n : Nat) (hn : n ≠ 0) :
    ∀ (k : Nat) (l : List α), l.length ≤ k → (chunksOf n l).flatten = l := by
  intro k
  induction k with
  | zero =>
    intro l hl
    have hnil : l = [] := List.eq_nil_of_length_eq_zero (Nat.le_zero.mp hl)
    subst hnil
    rfl
  | succ k ih =>
    intro l hl
    by_cases he : l = []
    · subst he; rfl
    · have h1 : 0 < l.length := List.length_pos.mpr he
      have hd : (l.drop n).length ≤ k := by
        simp only [List.length_drop]
        omega
      rw [chunksOf_cons n hn l he, List.flatten_cons, ih (l.drop n) hd,
        List.take_append_drop]

theorem chunksOf_flatten {α : Type} (n : Nat) (hn : n ≠ 0) (l : List α) :
    (chunksOf n l).flatten = l :=
  chunksOf_flatten_aux n hn l.length l le_rfl

theorem chunkLens_zero (n : Nat) : chunkLens n 0 = [] := by
  rw [chunkLens]
  simp

theorem chunkLens_pos (n len : Nat) (hl : len ≠ 0) (hn : n ≠ 0) :
    chunkLens n len = min n len :: chunkLens n (len - n) := by
  rw [chunkLens]
  simp [hl, hn]

theorem chunksOf_map_length_aux {α : Type} (n : Nat) (hn : n ≠ 0) :
    ∀ (k : Nat) (l : List α), l.length ≤ k →
      (chunksOf n l).map List.length = chunkLens n l.length := by
  intro k
  induction k with
  | zero =>
    intro l hl
    have hnil : l = [] := List.eq_nil_of_length_eq_zero (Nat.le_zero.mp hl)
    subst hnil
    rw [chunksOf_nil]
    simp [chunkLens_zero]
  | succ k ih =>
    intro l hl
    by_cases he : l = []
    · subst he
      rw [chunksOf_nil]
      simp [chunkLens_zero]
    · have h1 : 0 < l.length := List.length_pos.mpr he
      have hlen : l.length ≠ 0 := Nat.pos_iff_ne_zero.mp h1
      have hd : (l.drop n).length ≤ k := by
        simp only [List.length_drop]
        omega
      rw [chunksOf_cons n hn l he, List.map_cons, ih (l.drop n) hd,
        chunkLens_pos n l.length hlen hn, List.length_take, List.length_drop]

theorem chunksOf_map_length {α : Type} (n : Nat) (hn : n ≠ 0) (l : List α) :
    (chunksOf n l).map List.length = chunkLens n l.length :=
  chunksOf_map_length_aux n hn l.length l le_rfl

theorem chunkLens_mem_bounds (n : Nat) (hn : n ≠ 0) :
    ∀ (len : Nat), ∀ x ∈ chunkLens n len, 0 < x ∧ x ≤ n := by
  intro len
  induction len using Nat.strong_induction_on with
  | _ len ih =>
    intro x hx
    by_cases hl : len = 0
    · subst hl
      rw [chunkLens_zero] at hx
      simp at hx
    · rw [chunkLens_pos n len hl hn] at hx
      rcases List.mem_cons.mp hx with hx1 | hx2
      · subst hx1
        exact ⟨lt_min (Nat.pos_of_ne_zero hn) (Nat.pos_of_ne_zero hl), min_le_left n len⟩
      · have hlt : len - n < len := by
          have h1 : 0 < n := Nat.pos_of_ne_zero hn
          have h2 : 0 < len := Nat.pos_of_ne_zero hl
          omega
        exact ih (len - n) hlt x hx2

theorem chunksOf_mem_bounds {α : Type} (n : Nat) (hn : n ≠ 0) (l : List α) :
    ∀ c ∈ chunksOf n l, 0 < c.length ∧ c.length ≤ n := by
  intro c hc
  have hmap : c.length ∈ (chunksOf n l).map List.length :=
    List.mem_map_of_mem List.length hc
  rw [chunksOf_map_length n hn l] at hmap
  exact chunkLens_mem_bounds n hn l.length c.length hmap

theorem chunkLens_100_250 : chunkLens 100 250 = [100, 100, 50] := by
  rw [chunkLens_pos 100 250 (by norm_num) (by norm_num),
    show (250 : Nat) - 100 = 150 by norm_num,
    chunkLens_pos 100 150 (by norm_num) (by norm_num),
    show (150 : Nat) - 100 = 50 by norm_num,
    chunkLens_pos 100 50 (by norm_num) (by norm_num),
    show (50 : Nat) - 100 = 0 by norm_num,
    chunkLens_zero]
  decide

theorem runChunks_spec (resps : Nat → ChunkResp) :
    ∀ (cs : List (List String)) (k : Nat),
      (∀ i, i < cs.length → (resps (k + i)).isExn = false) →
      (runChunks resps cs k).requests = cs
        ∧ (runChunks resps cs k).thrown = none
        ∧ (runChunks resps cs k).succeededChunks
            = ((List.enumFrom k cs).filter
                (fun p => decide (resps p.1 = ChunkResp.ok))).map Prod.snd
        ∧ (runChunks resps cs k).failedChunks
            = (List.enumFrom k cs).filterMap
                (fun p =>
                  match resps p.1 with
                  | ChunkResp.httpError s b => some (p.2, s, b)
                  | _ => none) := by
  intro cs
  induction cs with
  | nil =>
    intro k _
    exact ⟨rfl, rfl, rfl, rfl⟩
  | cons c cs ih =>
    intro k h
    have h0 : (resps k).isExn = false := by
      have hk := h 0 (by simp)
      simpa using hk
    have hrest : ∀ i, i < cs.length → (resps (k + 1 + i)).isExn = false := by
      intro i hi
      have hk := h (i + 1) (by simpa using Nat.succ_lt_succ hi)
      rwa [show k + (i + 1) = k + 1 + i by omega] at hk
    rcases ih (k + 1) hrest with ⟨hreq, hthr, hsucc, hfail⟩
    cases hr : resps k with
    | ok =>
      refine ⟨?_, ?_, ?_, ?_⟩ <;>
        simp [runChunks, hr, List.enumFrom_cons, List.filter_cons, List.filterMap_cons,
          hreq, hthr, hsucc, hfail]
    | httpError s b =>
      refine ⟨?_, ?_, ?_, ?_⟩ <;>
        simp [runChunks, hr, List.enumFrom_cons, List.filter_cons, List.filterMap_cons,
          hreq, hthr, hsucc, hfail]
    | exn m =>
      rw [hr] at h0
      simp [ChunkResp.isExn] at h0

theorem runChunks_count (resps : Nat → ChunkResp) :
    ∀ (cs : List (List String)) (k : Nat),
      (∀ i, i < cs.length → (resps (k + i)).isExn = false) →
      (runChunks resps cs k).deletedCount
          + ((runChunks resps cs k).failedChunks.map (fun f => f.1.length)).sum
        = (cs.map List.length).sum := by
  intro cs
  induction cs with
  | nil =>
    intro k _
    rfl
  | cons c cs ih =>
    intro k h
    have h0 : (resps k).isExn = false := by
      have hk := h 0 (by simp)
      simpa using hk
    have hrest : ∀ i, i < cs.length → (resps (k + 1 + i)).isExn = false := by
      intro i hi
      have hk := h (i + 1) (by simpa using Nat.succ_lt_succ hi)
      rwa [show k + (i + 1) = k + 1 + i by omega] at hk
    have hc := ih (k + 1) hrest
    cases hr : resps k with
    | ok =>
      simp only [runChunks, hr, DeleterRun.deletedCount, List.map_cons, List.sum_cons] at hc ⊢
      omega
    | httpError s b =>
      simp only [runChunks, hr, DeleterRun.deletedCount, List.map_cons, List.sum_cons] at hc ⊢
      omega
    | exn m =>
      rw [hr] at h0
      simp [ChunkResp.isExn] at h0

/-- Shared characterization of one deleteReleases run whose chunk
responses hold no thrown exception: the requests are the chunks in order,
nothing escapes the loop, the chunks logged as deleted are exactly the
chunks with an ok response, the failed chunks record is exactly the chunks
with a non-success response together with their error details, and deleted
plus failed identifier counts add up to the whole deletion set. -/
theorem deleteReleases_spec (releaseNames : List String) (resps : Nat → ChunkResp)
    (h : ∀ i, i < (chunksOf 100 releaseNames).length → (resps i).isExn = false) :
    (deleteReleases releaseNames resps).requests = chunksOf 100 releaseNames
      ∧ (deleteReleases releaseNames resps).thrown = none
      ∧ (deleteReleases releaseNames resps).succeededChunks
          = (((chunksOf 100 releaseNames).enum.filter
              (fun p => decide (resps p.1 = ChunkResp.ok))).map Prod.snd)
      ∧ (deleteReleases releaseNames resps).failedChunks
          = (chunksOf 100 releaseNames).enum.filterMap
              (fun p =>
                match resps p.1 with
                | ChunkResp.httpError s b => some (p.2, s, b)
                | _ => none)
      ∧ (deleteReleases releaseNames resps).deletedCount
            + ((deleteReleases releaseNames resps).failedChunks.map (fun f => f.1.length)).sum
          = releaseNames.length := by
  by_cases he : releaseNames.isEmpty
  · have hnil : releaseNames = [] := List.isEmpty_iff.mp he
    subst hnil
    exact ⟨rfl, rfl, rfl, rfl, rfl⟩
  · have hrun : deleteReleases releaseNames resps
        = runChunks resps (chunksOf 100 releaseNames) 0 := by
      simp [deleteReleases, he]
    have h0 : ∀ i, i < (chunksOf 100 releaseNames).length → (resps (0 + i)).isExn = false := by
      intro i hi
      simpa using h i hi
    rcases runChunks_spec resps (chunksOf 100 releaseNames) 0 h0 with ⟨hreq, hthr, hsucc, hfail⟩
    have hcount := runChunks_count resps (chunksOf 100 releaseNames) 0 h0
    have hlen : ((chunksOf 100 releaseNames).map List.length).sum = releaseNames.length := by
      rw [← List.length_flatten, chunksOf_flatten 100 (by norm_num) releaseNames]
    refine ⟨?_, ?_, ?_, ?_, ?_⟩
    · rw [hrun, hreq]
    · rw [hrun, hthr]
    · rw [hrun, hsucc]
      rfl
    · rw [hrun, hfail]
      rfl
    · rw [hrun]
      exact hcount.trans hlen

/-- C4: the Batch Deleter called on an empty deletion set returns
immediately with no request, no failed chunk and a deleted count of zero;
and for any deletion set and any pattern of per-chunk HTTP responses, the
chunks counted as deleted are exactly the chunks whose request got an ok
response, with the identifiers of failed chunks accounted for separately
(deleted plus failed identifiers add up to the whole deletion set, so an
identifier in a failed chunk is never counted as deleted). -/
theorem C4_deleter_counts (releaseNames : List String) (resps : Nat → ChunkResp)
    (h : ∀ i, i < (chunksOf 100 releaseNames).length → (resps i).isExn = false) :
    deleteReleases [] resps = ⟨[], [], [], none⟩
      ∧ (deleteReleases [] resps).deletedCount = 0
      ∧ (deleteReleases releaseNames resps).succeededChunks
          = (((chunksOf 100 releaseNames).enum.filter
              (fun p => decide (resps p.1 = ChunkResp.ok))).map Prod.snd)
      ∧ (deleteReleases releaseNames resps).deletedCount
            + ((deleteReleases releaseNames resps).failedChunks.map (fun f => f.1.length)).sum
          = releaseNames.length := by
  rcases deleteReleases_spec releaseNames resps h with ⟨_, _, hsucc, _, hcount⟩
  exact ⟨rfl, rfl, hsucc, hcount⟩

/-- C6: for every deletion set and every pattern of per-chunk HTTP
responses, every chunk is submitted (a failing chunk never aborts the
remaining chunks), nothing escapes the loop, and the failed chunks record
is exactly the chunks whose response was a non-success, each with its
identifiers and the error status and body. -/
theorem C6_chunk_failure_isolation (releaseNames : List String) (resps : Nat → ChunkResp)
    (h : ∀ i, i < (chunksOf 100 releaseNames).length → (resps i).isExn = false) :
    (deleteReleases releaseNames resps).requests = chunksOf 100 releaseNames
      ∧ (deleteReleases releaseNames resps).thrown = none
      ∧ (deleteReleases releaseNames resps).failedChunks
          = (chunksOf 100 releaseNames).enum.filterMap
              (fun p =>
                match resps p.1 with
                | ChunkResp.httpError s b => some (p.2, s, b)
                | _ => none) := by
  rcases deleteReleases_spec releaseNames resps h with ⟨hreq, hthr, _, hfail, _⟩
  exact ⟨hreq, hthr, hfail⟩

/-- C8: the Batch Deleter partitions the deletion set into chunks of at
most 100 identifiers that concatenate back to the deletion set in order
(every identifier lands in exactly one chunk), submits exactly those chunks
in that order, the chunk sizes are the canonical sizes for the input
length, and a deletion set of 250 identifiers yields sizes 100, 100, 50. -/
theorem C8_chunking (releaseNames : List String) (resps : Nat → ChunkResp)
    (h : ∀ i, i < (chunksOf 100 releaseNames).length → (resps i).isExn = false) :
    (deleteReleases releaseNames resps).requests = chunksOf 100 releaseNames
      ∧ (chunksOf 100 releaseNames).flatten = releaseNames
      ∧ (∀ c ∈ chunksOf 100 releaseNames, 0 < c.length ∧ c.length ≤ 100)
      ∧ (chunksOf 100 releaseNames).map List.length = chunkLens 100 releaseNames.length
      ∧ (releaseNames.length = 250 →
          (chunksOf 100 releaseNames).map List.length = [100, 100, 50]) := by
  refine ⟨(deleteReleases_spec releaseNames resps h).1,
    chunksOf_flatten 100 (by norm_num) releaseNames,
    chunksOf_mem_bounds 100 (by norm_num) releaseNames,
    chunksOf_map_length 100 (by norm_num) releaseNames, ?_⟩
  intro h250
  rw [chunksOf_map_length 100 (by norm_num) releaseNames, h250, chunkLens_100_250]

/-- Witness for C4 at a concrete two-identifier deletion set with every
chunk request succeeding. -/
theorem C4_witness :
    deleteReleases [] allChunksOk = ⟨[], [], [], none⟩
      ∧ (deleteReleases [] allChunksOk).deletedCount = 0
      ∧ (deleteReleases namesSmall allChunksOk).succeededChunks
          = (((chunksOf 100 namesSmall).enum.filter
              (fun p => decide (allChunksOk p.1 = ChunkResp.ok))).map Prod.snd)
      ∧ (deleteReleases namesSmall allChunksOk).deletedCount
            + ((deleteReleases namesSmall allChunksOk).failedChunks.map (fun f => f.1.length)).sum
          = namesSmall.length :=
  C4_deleter_counts namesSmall allChunksOk (fun i _ => rfl)

/-- Witness for C6 at the chunk-2-of-3 scenario: 250 identifiers, the
second chunk request failing. -/
theorem C6_witness :
    (deleteReleases chunkNames250 failSecondChunk).requests = chunksOf 100 chunkNames250
      ∧ (deleteReleases chunkNames250 failSecondChunk).thrown = none
      ∧ (deleteReleases chunkNames250 failSecondChunk).failedChunks
          = (chunksOf 100 chunkNames250).enum.filterMap
              (fun p =>
                match failSecondChunk p.1 with
                | ChunkResp.httpError s b => some (p.2, s, b)
                | _ => none) :=
  C6_chunk_failure_isolation chunkNames250 failSecondChunk (by
    intro i _
    by_cases h1 : i = 1 <;> simp [failSecondChunk, h1, ChunkResp.isExn])

/-- Witness for C8 at the concrete 250-identifier deletion set. -/
theorem C8_witness :
    (deleteReleases chunkNames250 allChunksOk).requests = chunksOf 100 chunkNames250
      ∧ (chunksOf 100 chunkNames250).flatten = chunkNames250
      ∧ (∀ c ∈ chunksOf 100 chunkNames250, 0 < c.length ∧ c.length ≤ 100)
      ∧ (chunksOf 100 chunkNames250).map List.length = chunkLens 100 chunkNames250.length
      ∧ (chunkNames250.length = 250 →
          (chunksOf 100 chunkNames250).map List.length = [100, 100, 50]) :=
  C8_chunking chunkNames250 allChunksOk (fun i _ => rfl)

theorem listPagesLoop_clean (appId : String) :
    ∀ (pages : List PageResult) (acc : List Release), pagesClean pages = true →
      ∃ rels, listPagesLoop appId pages acc = Except.ok rels := by
  intro pages
  induction pages with
  | nil =>
    intro acc _
    exact ⟨acc, rfl⟩
  | cons p ps ih =>
    intro acc h
    have hp : p.isSuccess = true ∧ pagesClean ps = true := by
      simpa [pagesClean] using h
    cases p with
    | failure s b => simp [PageResult.isSuccess] at hp
    | success rels tok =>
      cases tok with
      | none => exact ⟨acc ++ rels, rfl⟩
      | some t => exact ih (acc ++ rels) hp.2

theorem processApp_not_listingFailed (appId : String) (pages : List PageResult)
    (resps : Nat → ChunkResp) (minCount : Nat) (cutoff : Int)
    (h : pagesClean pages = true) :
    (processApp appId pages resps minCount cutoff).isListingFailure = false := by
  rcases listPagesLoop_clean appId pages [] h with ⟨rels, hr⟩
  have hl : listReleases appId pages = Except.ok rels := hr
  simp only [processApp, hl]
  split
  · rfl
  · split
    · rfl
    · rfl

theorem isListingFailure_iff (out : AppOutcome) :
    out.isListingFailure = true ↔ ∃ e, out = AppOutcome.listingFailed e := by
  cases out <;> simp [AppOutcome.isListingFailure]

theorem runAllApps_cons_clean (minCount : Nat) (cutoff : Int) (a : AppSpec)
    (rest : List AppSpec)
    (hnl : (processApp a.app.appId a.pages a.resps minCount cutoff).isListingFailure = false) :
    runAllApps minCount cutoff (a :: rest)
      = ⟨(a.app.appId, processApp a.app.appId a.pages a.resps minCount cutoff)
            :: (runAllApps minCount cutoff rest).processed,
          (runAllApps minCount cutoff rest).exitCode⟩ := by
  cases hpa : processApp a.app.appId a.pages a.resps minCount cutoff with
  | listingFailed e =>
    rw [hpa] at hnl
    simp [AppOutcome.isListingFailure] at hnl
  | noReleases => simp [runAllApps, hpa]
  | nothingToDelete => simp [runAllApps, hpa]
  | pruned d => simp [runAllApps, hpa]

theorem runAllApps_cons_failed (minCount : Nat) (cutoff : Int) (a : AppSpec)
    (rest : List AppSpec) (e : ListingFailure)
    (hpa : processApp a.app.appId a.pages a.resps minCount cutoff
        = AppOutcome.listingFailed e) :
    runAllApps minCount cutoff (a :: rest)
      = ⟨[(a.app.appId, AppOutcome.listingFailed e)], 1⟩ := by
  simp [runAllApps, hpa]

/-- Counterexample to C2 as stated: in all-apps mode with two apps, a
listing failure in the first app (its Collector fails, a ListingFailed) is
not caught at the per-app boundary — the loop calls listReleases without a
per-app guard, the error reaches the outer catch, the process exits with
code 1 and the second app is never processed. -/
theorem C2_counterexample :
    (runAllApps 5 0 [appA1, appA2]).processed
        = [("A1", AppOutcome.listingFailed ⟨"A1", 500, "boom"⟩)]
      ∧ "A2" ∉ (runAllApps 5 0 [appA1, appA2]).processed.map Prod.fst
      ∧ (runAllApps 5 0 [appA1, appA2]).exitCode = 1 := by
  refine ⟨?_, ?_, ?_⟩ <;> decide

/-- C2 amended: only Deleter failures are isolated at the per-app
boundary. When no listing trace of any app contains a failure response, every
app in the sequence is processed in order — whatever the chunk responses,
including non-success responses and thrown deletions — and the run exits
with code 0; a Collector failure instead aborts the whole run (see the
counterexample). -/
theorem C2_amended_deleter_isolation (apps : List AppSpec) (minCount : Nat) (cutoff : Int)
    (h : ∀ a ∈ apps, pagesClean a.pages = true) :
    (runAllApps minCount cutoff apps).processed.map Prod.fst
        = apps.map (fun a => a.app.appId)
      ∧ (runAllApps minCount cutoff apps).exitCode = 0 := by
  revert h
  induction apps with
  | nil =>
    intro _
    exact ⟨rfl, rfl⟩
  | cons a rest ih =>
    intro h
    have ha : pagesClean a.pages = true := h a (List.mem_cons_self a rest)
    have hrest := ih (fun x hx => h x (List.mem_cons_of_mem a hx))
    have hnl := processApp_not_listingFailed a.app.appId a.pages a.resps minCount cutoff ha
    rw [runAllApps_cons_clean minCount cutoff a rest hnl]
    exact ⟨by simp [hrest.1], hrest.2⟩

/-- Witness for the amended C2: the first app lists one stale release and
its deletion request throws; the second app is still processed and the run
exits cleanly. -/
theorem C2_amended_witness :
    (runAllApps 0 0 [appA3, appA4]).processed.map Prod.fst
        = [appA3, appA4].map (fun a => a.app.appId)
      ∧ (runAllApps 0 0 [appA3, appA4]).exitCode = 0 :=
  C2_amended_deleter_isolation [appA3, appA4] 0 0 (by decide)

/-- Counterexample to C3 as stated: a run whose only failure is a failed
deletion chunk does not terminate distinguishably from a fully clean run —
the exit code is 0 and the terminal report (exit code, the final Pruning
complete line, the per-app Finished attempting counts) is identical to the
clean run on the same inventory; only a console.error line emitted while
the run was in flight differs. -/
theorem C3_counterexample :
    (runAllApps 0 0 [appChunkFail]).terminalReport
        = (runAllApps 0 0 [appChunkOk]).terminalReport
      ∧ (runAllApps 0 0 [appChunkFail]).exitCode = 0
      ∧ ((runAllApps 0 0 [appChunkFail]).processed.map (fun p => p.2.chunkFailures)).sum = 1
      ∧ (runAllApps 0 0 [appChunkFail]).errorLines = 1
      ∧ (runAllApps 0 0 [appChunkOk]).errorLines = 0 := by
  refine ⟨?_, ?_, ?_, ?_, ?_⟩ <;> decide

/-- C3 amended: the exit code is 1 exactly when some app run ended in a
ListingFailed (such a run is distinguishable from a clean one), while a
failed deletion chunk never changes the exit code or the terminal report —
it is visible only through the console.error lines written during the run,
which are nonzero whenever some processed app recorded a failed chunk. -/
theorem C3_amended_failure_visibility (apps : List AppSpec) (minCount : Nat) (cutoff : Int) :
    ((runAllApps minCount cutoff apps).exitCode = 1
        ↔ ∃ p ∈ (runAllApps minCount cutoff apps).processed, p.2.isListingFailure = true)
      ∧ (∀ p ∈ (runAllApps minCount cutoff apps).processed,
          p.2.chunkFailures ≠ 0 → (runAllApps minCount cutoff apps).errorLines ≠ 0) := by
  induction apps with
  | nil =>
    refine ⟨⟨fun h1 => ?_, fun h2 => ?_⟩, fun p hp => ?_⟩
    · simp [runAllApps] at h1
    · rcases h2 with ⟨p, hp, _⟩
      simp [runAllApps] at hp
    · simp [runAllApps] at hp
  | cons a rest ih =>
    by_cases hb : (processApp a.app.appId a.pages a.resps minCount cutoff).isListingFailure
        = true
    · rcases (isListingFailure_iff _).mp hb with ⟨e, hpa⟩
      rw [runAllApps_cons_failed minCount cutoff a rest e hpa]
      refine ⟨⟨fun _ => ?_, fun _ => rfl⟩, fun p hp hcf => ?_⟩
      · exact ⟨(a.app.appId, AppOutcome.listingFailed e), by simp, rfl⟩
      · have hpe : p = (a.app.appId, AppOutcome.listingFailed e) := by
          simpa using hp
        rw [hpe] at hcf
        simp [AppOutcome.chunkFailures] at hcf
    · have hb2 : (processApp a.app.appId a.pages a.resps minCount cutoff).isListingFailure
          = false := by
        simpa using hb
      rw [runAllApps_cons_clean minCount cutoff a rest hb2]
      have herr :
          (DriverResult.mk
              ((a.app.appId, processApp a.app.appId a.pages a.resps minCount cutoff)
                :: (runAllApps minCount cutoff rest).processed)
              (runAllApps minCount cutoff rest).exitCode).errorLines
            = (processApp a.app.appId a.pages a.resps minCount cutoff).errorLines
              + (runAllApps minCount cutoff rest).errorLines := by
        simp [DriverResult.errorLines]
      refine ⟨⟨fun h1 => ?_, fun h2 => ?_⟩, fun p hp hcf => ?_⟩
      · rcases ih.1.mp h1 with ⟨p, hp, hlf⟩
        exact ⟨p, List.mem_cons_of_mem _ hp, hlf⟩
      · rcases h2 with ⟨p, hp, hlf⟩
        rcases List.mem_cons.mp hp with hpe | hpr
        · rw [hpe] at hlf
          simp only at hlf
          rw [hlf] at hb2
          simp at hb2
        · exact ih.1.mpr ⟨p, hpr, hlf⟩
      · rw [herr]
        rcases List.mem_cons.mp hp with hpe | hpr
        · have hce : (processApp a.app.appId a.pages a.resps minCount cutoff).chunkFailures ≠ 0 := by
            rw [hpe] at hcf
            simpa using hcf
          have hlower : (processApp a.app.appId a.pages a.resps minCount cutoff).chunkFailures
              ≤ (processApp a.app.appId a.pages a.resps minCount cutoff).errorLines := by
            cases processApp a.app.appId a.pages a.resps minCount cutoff with
            | listingFailed e => simp [AppOutcome.chunkFailures, AppOutcome.errorLines]
            | noReleases => simp [AppOutcome.chunkFailures, AppOutcome.errorLines]
            | nothingToDelete => simp [AppOutcome.chunkFailures, AppOutcome.errorLines]
            | pruned d =>
              simp only [AppOutcome.chunkFailures, AppOutcome.errorLines]
              omega
          omega
        · have := ih.2 p hpr hcf
          omega

/-- C10 counterexample: with a credential source present and a malformed
min-count, the entrypoint does not signal a configuration failure — it
calls runPruner (remote calls follow) with minCount NaN; malformed numeric
inputs are never validated. -/
theorem C10_counterexample :
    actionRun inputsMalformedMin
        = ActionResult.proceeded ⟨"my-project", some "key-json", none, none, none, some 30⟩
      ∧ actionRun inputsMalformedMin ≠ ActionResult.configInvalid credentialErrorMsg := by
  refine ⟨by decide, ?_⟩
  intro hm
  have h1 : actionRun inputsMalformedMin
      = ActionResult.proceeded ⟨"my-project", some "key-json", none, none, none, some 30⟩ := by
    decide
  rw [h1] at hm
  exact ActionResult.noConfusion hm

/-- C10 amended: the entrypoint validates only the credential source. When
project-id is present but none of the inline key, the key path and the
ambient GOOGLE_APPLICATION_CREDENTIALS variable is, it calls setFailed with
the credential message and returns before runPruner, so no remote call is
ever issued, and the failure is a configInvalid, distinct by construction
from anything a started run reports. Malformed numeric inputs do not halt
the run (see the counterexample). -/
theorem C10_amended_credential_check (i : ActionInputs)
    (hp : i.projectId ≠ "")
    (hj : i.serviceAccountKeyJson = "") (hk : i.serviceAccountKeyPath = "")
    (hg : i.googleAppCredentials = "") :
    actionRun i = ActionResult.configInvalid credentialErrorMsg := by
  simp [actionRun, hp, hj, hk, hg]

/-- Witness for the amended C10 at concrete inputs with no credential
source. -/
theorem C10_witness :
    actionRun inputsNoCreds = ActionResult.configInvalid credentialErrorMsg :=
  C10_amended_credential_check inputsNoCreds (by decide) rfl rfl rfl

end Pruner
